import Mathlib

/-!
Verification development for a Java-source structural analysis engine.

The embedding below models, shallowly and executably:
  * the balanced-block extractor (`extract_full_type` in
    prepare_context_from_imports.py, `extract_full_class` in
    dep_revdep_context.py / dep_revdep_upto_d.py);
  * the two-pass regex structural matcher (`regex_parse_java` in
    graph_parallel.py and graph.py) over a structured representation of the
    per-file regex match results;
  * the reverse-dependency / bean-configuration resolver
    (`find_reverse_dependencies`, `find_bean_configurations`,
    `recursive_reverse_dependencies`, `prepare_context`,
    `prepare_context_multi`).

Machine text is modelled as `String` / `List Char`; Python sets become
duplicate-free accumulation on lists; the in-place mutation of the shared
`visited` set and of the global `ALL_DEFINED_METHODS` set becomes explicit
state passing.
-/

namespace PRReviewer

/-! ## String utilities (modelling Python's str operations) -/

/-- Python `s.lower()` (ASCII case folding, which is all the source needs). -/
def lowerStr (s : String) : String := String.mk (s.data.map Char.toLower)

/-- Python `needle in haystack` (substring containment). -/
def containsStr (hay ned : String) : Bool := decide (ned.data <:+: hay.data)

/-- Python `s.endswith(suf)` (case-sensitive suffix test). -/
def endsWithStr (s suf : String) : Bool := decide (suf.data <:+ s.data)

/-- Models `re.search(r'(?i)test\.java$', name)`: case-insensitive test-file
filename convention used by `find_reverse_dependencies`
(prepare_context_from_imports.py line 113). -/
def isTestJavaName (name : String) : Bool := endsWithStr (lowerStr name) "test.java"

/-! ## Balanced-block extractor

`extract_full_type` (prepare_context_from_imports.py lines 64-78) and the
identical `extract_full_class` (dep_revdep_context.py lines 86-99,
dep_revdep_upto_d.py lines 88-101): starting from a `TYPE_RE` match, scan
forward counting brace depth (`+1` on `{`, `-1` on `}`), returning the slice
`code[match.start() : i+1]` at the first index where the depth returns to
zero at a closing brace; if the regex does not match, or the scan runs off
the end, the whole buffer is returned.

The regex search itself is abstracted: the match is passed as an optional
pair `(start, matchEnd)` of offsets (the match's span), `none` when
`TYPE_RE.search` finds nothing. -/

/-- The depth-counting scan of the source's `for i in range(match.end(), len(code))`
loop: returns the index (absolute, starting from `i0`) of the closing brace at
which the running depth first returns to zero, or `none` if the loop ends. -/
def findClose : List Char → Int → Nat → Option Nat
  | [], _, _ => none
  | c :: cs, depth, i =>
    if c = '{' then findClose cs (depth + 1) (i + 1)
    else if c = '}' then
      if depth - 1 = 0 then some i else findClose cs (depth - 1) (i + 1)
    else findClose cs depth (i + 1)

/-- Models `extract_full_type(code)` with the `TYPE_RE.search` result abstracted as
`m : Option (Nat × Nat)` = `some (match.start(), match.end())`, or `none`
when no type declaration is found (then the whole buffer is returned). -/
def extract_full_type (code : List Char) (m : Option (Nat × Nat)) : List Char :=
  match m with
  | none => code
  | some (start, mEnd) =>
    match findClose (code.drop mEnd) 0 mEnd with
    | some i => (code.take (i + 1)).drop start
    | none => code

/-- Net brace balance of a character list: count of `{` minus count of `}`. -/
def braceNet (l : List Char) : Int :=
  (l.count '{' : Int) - (l.count '}' : Int)

/-- No brace characters occur in the list. -/
def noBrace (l : List Char) : Bool :=
  l.all (fun c => !(c == '{') && !(c == '}'))

/-! ## Structural pattern matcher (graph.py and graph_parallel.py)

The regex layer is abstracted into a structured per-file representation of
what the regexes match: a `JFile` lists the `PACKAGE_RE` result and the
`CLASS_RE` matches in order; each `JClass` carries the annotation tokens
found by `re.findall(r'@([A-Za-z0-9_\.]+)', ...)` in the 400-character
lookback window, the `extends`/`implements` targets found in the
400-character tail region (graph.py lines 80-88), the `@Autowired` field
types, the constructor-match count, and the `METHOD_HEADER_RE` matches in
the class body (`JMethod`).  `JMethod.hEnd` is the end offset of the header
match relative to the class-body start (`body_start`): graph_parallel.py
truncates the body to `code[body_start : body_start + 8000]` (line 100), so
only headers with `hEnd ≤ 8000` are seen there, while graph.py scans the
whole balanced body.  `JMethod.callTokens` lists the `CALL_RE` group-1
tokens found in the method's body window.  Every `JClass` models a
declaration whose body brace was found (`body_start != -1`). -/

/-- One `{from, to, type, role}` relation record. -/
structure Relation where
  fromN : String
  toN : Option String
  rtype : String
  role : String
deriving DecidableEq, Repr

/-- A `METHOD_HEADER_RE` match inside a class body. -/
structure JMethod where
  name : String
  hEnd : Nat
  callTokens : List String
deriving DecidableEq, Repr

/-- A `CLASS_RE` match together with the regex findings attached to it. -/
structure JClass where
  kind : String
  name : String
  annos : List String
  extendsTail : Option String
  implTail : List String
  autowired : List String
  ctors : Nat
  methods : List JMethod
deriving DecidableEq, Repr

/-- A source file as seen by `regex_parse_java`. -/
structure JFile where
  pkg : Option String
  classes : List JClass
deriving DecidableEq, Repr

/-- The `SPRING_ANNOTATIONS` stereotype table, in insertion (= iteration)
order (graph.py lines 5-12, graph_parallel.py lines 12-19). -/
def springStereotypes : List (String × String) :=
  [("Controller", "controller"), ("RestController", "controller"),
   ("Service", "service"), ("Repository", "repository"),
   ("Component", "component"), ("Configuration", "configuration")]

/-- The `CONTROL_KEYWORDS` set (graph.py line 51, graph_parallel.py line 55). -/
def CONTROL_KEYWORDS : List String :=
  ["if", "for", "while", "switch", "catch", "return", "throw", "new"]

/-- The inner stereotype loop `for k, v in SPRING_ANNOTATIONS.items(): if
k.lower() in a.lower(): role = v; break`: the first table entry whose key is
a (case-folded) substring of the token. -/
def annoRole (a : String) : Option String :=
  (springStereotypes.find? (fun kv => containsStr (lowerStr a) (lowerStr kv.1))).map (·.2)

/-- The outer stereotype loop over the lookback tokens: the first token
with any recognized stereotype decides the role, else "class".  (No table
value equals "class", so `role != "class"`-break is first-match.) -/
def stereotypeRole : List String → String
  | [] => "class"
  | a :: rest =>
    match annoRole a with
    | some v => v
    | none => stereotypeRole rest

/-- Models `f"{package}.{cls_name}"`. -/
def fqnClass (pkg : String) (c : JClass) : String := pkg ++ "." ++ c.name

/-- Models `package = pm.group(1) if pm else "default"`. -/
def pkgOf (f : JFile) : String := f.pkg.getD "default"

/-- The `METHOD_HEADER_RE` matches visible in graph_parallel.py's capped
window `code[body_start : body_start + 8000]`: headers ending within the
first 8000 characters of the body. -/
def windowMethods (c : JClass) : List JMethod :=
  c.methods.filter (fun m => m.hEnd ≤ 8000)

/-! ### graph_parallel.py `regex_parse_java`

`ALL_DEFINED_METHODS` (a global, mutated set) is threaded explicitly as a
duplicate-free `List String` index; `List.insert` models `set.add`.  The
relation list returned is the `relations` list in emission order. -/

/-- The first method loop (graph_parallel.py lines 104-114): records each
non-keyword method name and FQN in the index and (in pass 2) emits
`has_method`.  Returns the relations it appends and the updated index. -/
def parseMethodsLoop (collectOnly : Bool) (fqnC role : String) :
    List JMethod → List String → List Relation × List String
  | [], idx => ([], idx)
  | m :: ms, idx =>
    if m.name ∈ CONTROL_KEYWORDS then parseMethodsLoop collectOnly fqnC role ms idx
    else
      let fqnM := fqnC ++ "." ++ m.name
      let r := parseMethodsLoop collectOnly fqnC role ms ((idx.insert m.name).insert fqnM)
      ((if collectOnly then r.1 else ⟨fqnC, some fqnM, "has_method", role⟩ :: r.1), r.2)

/-- The call-relation loop (graph_parallel.py lines 137-148): for every
windowed method header and every call-site token, emit `calls` unless the
token is a control keyword, equals the enclosing method's name, or is
missing from the method index. -/
def parseCallsLoop (fqnC role : String) (idx : List String) :
    List JMethod → List Relation
  | [] => []
  | m :: ms =>
    (m.callTokens.filter
        (fun t => !(CONTROL_KEYWORDS.contains t) && !(t == m.name) && idx.contains t)).map
      (fun t => (⟨fqnC ++ "." ++ m.name, some t, "calls", role⟩ : Relation))
      ++ parseCallsLoop fqnC role idx ms

/-- The class loop of graph_parallel.py's `regex_parse_java` (lines 77-148):
declares, index-building method loop, then (pass 2 only) autowired,
constructors and call relations. -/
def parseClassesLoop (collectOnly : Bool) (pkg : String) :
    List JClass → List String → List Relation × List String
  | [], idx => ([], idx)
  | c :: cs, idx =>
    let role := stereotypeRole c.annos
    let fqnC := fqnClass pkg c
    let rm := parseMethodsLoop collectOnly fqnC role (windowMethods c) idx
    let thisRels :=
      if collectOnly then rm.1
      else
        ⟨fqnC, none, "declares", role⟩ :: rm.1
          ++ c.autowired.map (fun t => (⟨fqnC, some t, "autowired", role⟩ : Relation))
          ++ List.replicate c.ctors (⟨fqnC, some (fqnC ++ "." ++ c.name), "has_constructor", role⟩ : Relation)
          ++ parseCallsLoop fqnC role rm.2 (windowMethods c)
    let rc := parseClassesLoop collectOnly pkg cs rm.2
    (thisRels ++ rc.1, rc.2)

/-- graph_parallel.py `regex_parse_java(file_path, code, collect_methods_only)`:
returns the relations list and the updated `ALL_DEFINED_METHODS` index. -/
def regex_parse_java (f : JFile) (collectOnly : Bool) (idx : List String) :
    List Relation × List String :=
  parseClassesLoop collectOnly (pkgOf f) f.classes idx

/-- Pass 1 of `build_repo_graph` (graph_parallel.py lines 161-171): run the
matcher in `collect_methods_only` mode over every file, accumulating the
shared method index (worker completion order only permutes insertions into
a set, so list order stands in for it). -/
def pass1 (corpus : List JFile) : List String :=
  corpus.foldl (fun idx f => (regex_parse_java f true idx).2) []

/-! ### graph.py `regex_parse_java` (single-pass variant)

Differences from the parallel variant: no global method index (every
non-keyword, non-self call token is emitted), `extends` / `implements`
relations from the 400-character tail region, balanced (uncapped) class
bodies, and the call scan nested inside the keyword-filtered method loop. -/

/-- graph.py lines 119-147: `has_method` plus the nested call scan. -/
def parseMethodsLoopG (fqnC role : String) : List JMethod → List Relation
  | [] => []
  | m :: ms =>
    if m.name ∈ CONTROL_KEYWORDS then parseMethodsLoopG fqnC role ms
    else
      let fqnM := fqnC ++ "." ++ m.name
      (⟨fqnC, some fqnM, "has_method", role⟩ : Relation)
        :: ((m.callTokens.filter
              (fun t => !(CONTROL_KEYWORDS.contains t) && !(t == m.name))).map
            (fun t => (⟨fqnM, some t, "calls", role⟩ : Relation))
          ++ parseMethodsLoopG fqnC role ms)

/-- The class loop of graph.py's `regex_parse_java` (lines 61-147). -/
def parseClassesLoopG (pkg : String) : List JClass → List Relation
  | [] => []
  | c :: cs =>
    let role := stereotypeRole c.annos
    let fqnC := fqnClass pkg c
    (⟨fqnC, none, "declares", role⟩ : Relation)
      :: ((match c.extendsTail with
          | some e => [(⟨fqnC, some e, "extends", role⟩ : Relation)]
          | none => [])
        ++ c.implTail.map (fun i => (⟨fqnC, some i, "implements", "interface"⟩ : Relation))
        ++ c.autowired.map (fun t => (⟨fqnC, some t, "autowired", role⟩ : Relation))
        ++ List.replicate c.ctors (⟨fqnC, some (fqnC ++ "." ++ c.name), "has_constructor", role⟩ : Relation)
        ++ parseMethodsLoopG fqnC role c.methods
        ++ parseClassesLoopG pkg cs)

/-- graph.py `regex_parse_java(file_path, code)`. -/
def regex_parse_java_G (f : JFile) : List Relation :=
  parseClassesLoopG (pkgOf f) f.classes

/-! ## Reverse-dependency resolver (prepare_context_from_imports.py)

A corpus entry carries its filename `f`, its `os.path.join(root, f)` path
(unique per file, as `os.walk` yields each path once), and the outcome of
the per-target text inspections: `samePkgHit t` is the same-package
`implements`/`extends` check (lines 121-127) and `combinedHit t` the
combined multi-signal regex search (lines 91-104, 129) for target FQN `t`;
`fqnOf` is the package+type FQN that `PACKAGE_RE`/`TYPE_RE` derive from the
file's text (lines 194-197), `none` when either regex fails. -/

structure RevFile where
  name : String
  path : String
  samePkgHit : String → Bool
  combinedHit : String → Bool
  fqnOf : Option String

/-- The `os.walk` loop of `find_reverse_dependencies` (lines 107-132):
keep `.java` files, skip `(?i)test\.java$` names unless `include_tests`,
then append the path on the same-package signal or on the combined signal. -/
def findRevLoop (fqn : String) (includeTests : Bool) : List RevFile → List String
  | [] => []
  | f :: fs =>
    let rest := findRevLoop fqn includeTests fs
    if !(endsWithStr f.name ".java") then rest
    else if !includeTests && isTestJavaName f.name then rest
    else if f.samePkgHit fqn then f.path :: rest
    else if f.combinedHit fqn then f.path :: rest
    else rest

/-- Models `find_reverse_dependencies(repo_path, target_fqn, include_tests)`
(lines 82-134); the final `list(set(results))` becomes `List.dedup`. -/
def find_reverse_dependencies (corpus : List RevFile) (fqn : String)
    (includeTests : Bool) : List String :=
  (findRevLoop fqn includeTests corpus).dedup

/-- The per-level cap `if limit: files = files[:limit]` (lines 187-188).
Python truthiness makes a cap of 0 behave like no cap; the model uses
`Option Nat` (the CLI passes a nonnegative `--reverse-limit` or `None`). -/
def applyLimit (limit : Option Nat) (files : List String) : List String :=
  match limit with
  | none => files
  | some l => if l = 0 then files else files.take l

/-- Models `open(f).read()` followed by the `PACKAGE_RE`/`TYPE_RE` searches on the
file found at path `p` (lines 193-197): look the path up in the corpus and
return its derived FQN, if any. -/
def derivedFqnAt (corpus : List RevFile) (p : String) : Option String :=
  (corpus.find? (fun g => g.path == p)).bind (·.fqnOf)

/-- The `for f in files` loop of `recursive_reverse_dependencies` (lines
190-202): append the path, derive the file's own FQN and recurse one level
deeper via `recur` (the resolver at `depth - 1`), sharing `visited`. -/
def rrdFilesLoop (corpus : List RevFile)
    (recur : String → List String → List String × List String) :
    List String → List String → List String × List String
  | [], visited => ([], visited)
  | p :: ps, visited =>
    let rs :=
      match derivedFqnAt corpus p with
      | some g => recur g visited
      | none => ([], visited)
    let rr := rrdFilesLoop corpus recur ps rs.2
    (p :: (rs.1 ++ rr.1), rr.2)

/-- Models `recursive_reverse_dependencies(repo_path, target_fqn, depth,
include_tests, limit, visited)` (prepare_context_from_imports.py lines
173-203).  The Python `visited` set is mutated in place and shared by every
recursive call, so it is threaded through as explicit state; the function
returns `(list(set(results)), visited')`.  `depth : Nat` models the int
depth (`depth <= 0` is `depth = 0`); termination is by the strictly
decreasing depth.  dep_revdep_upto_d.py lines 161-181 are the same
recursion without `include_tests`/`limit`. -/
def recursive_reverse_dependencies (corpus : List RevFile) (includeTests : Bool)
    (limit : Option Nat) : Nat → String → List String → List String × List String
  | 0, _, visited => ([], visited)
  | d + 1, fqn, visited =>
    if visited.contains fqn then ([], visited)
    else
      let files := applyLimit limit (find_reverse_dependencies corpus fqn includeTests)
      let r := rrdFilesLoop corpus
        (recursive_reverse_dependencies corpus includeTests limit d)
        files (fqn :: visited)
      (r.1.dedup, r.2)

/-! ## Bean/configuration references (prepare_context_from_imports.py
lines 138-156, dep_revdep_context.py lines 125-147) -/

/-- A corpus entry for the bean search: filename, path and raw text. -/
structure BeanFile where
  name : String
  path : String
  text : String
deriving DecidableEq, Repr

/-- The `@Qualifier\(["']T["']\)` regex: the quotes on each side vary
independently, so it is containment of one of four literal variants (the
target names contain no regex metacharacters). -/
def qualifierHit (t text : String) : Bool :=
  containsStr text ("@Qualifier(\x22" ++ t ++ "\x22)")
    || containsStr text ("@Qualifier(\x27" ++ t ++ "\x27)")
    || containsStr text ("@Qualifier(\x22" ++ t ++ "\x27)")
    || containsStr text ("@Qualifier(\x27" ++ t ++ "\x22)")

/-- The bean/configuration condition (lines 148-152): a `@Configuration`
file constructing the target, a `@Bean` file mentioning it, or a
`@Qualifier` binding its name. -/
def beanSignal (t text : String) : Bool :=
  (containsStr text "@Configuration" && containsStr text ("new " ++ t))
    || (containsStr text "@Bean" && containsStr text t)
    || qualifierHit t text

/-- Models `find_bean_configurations(repo_path, target_class_name)`: every `.java`
file (no test-name filtering) whose text matches the bean signal. -/
def find_bean_configurations (corpus : List BeanFile) (t : String) : List String :=
  match corpus with
  | [] => []
  | f :: fs =>
    let rest := find_bean_configurations fs t
    if endsWithStr f.name ".java" && beanSignal t f.text then f.path :: rest
    else rest

/-! ## Context preparation entry points

Only the target-existence behaviour is claim-relevant; the context assembly
on the success path (imports, inheritance, reverse deps, beans) is
abstracted to the list of processed targets.  A corpus is its list of
on-disk paths (`os.path.exists`). -/

/-- Models `prepare_context(repo_path, target_file_path, ...)`
(dep_revdep_upto_d.py lines 185-188): `raise FileNotFoundError` when the
target path does not exist, modelled as `Except.error`. -/
def prepare_context (paths : List String) (target : String) : Except String String :=
  if paths.contains target then Except.ok target
  else Except.error ("Target file not found: " ++ target)

/-- Models `prepare_context_multi(repo_path, target_files, ...)`
(prepare_context_from_imports.py lines 207-215): a missing target is
skipped with a printed warning (`continue`); no exception is raised on any
input. -/
def prepare_context_multi (paths : List String) :
    List String → Except String (List String)
  | [] => Except.ok []
  | t :: ts =>
    match prepare_context_multi paths ts with
    | Except.ok rest =>
      Except.ok (if paths.contains t then t :: rest else rest)
    | Except.error e => Except.error e

/-! ## Specification-side predicates and concrete fixtures -/

/-- Token `s` is one of the method names (or method FQNs) that Pass 1
records for file `f`: some class's windowed, non-keyword method header with
`s` its simple name or its fully-qualified name. -/
def declaredTok (f : JFile) (s : String) : Prop :=
  ∃ c ∈ f.classes, ∃ m ∈ windowMethods c,
    m.name ∉ CONTROL_KEYWORDS ∧
      (s = m.name ∨ s = fqnClass (pkgOf f) c ++ "." ++ m.name)

/-- Two-file corpus with a direct A→B→A reference cycle: each file's text
matches the combined signal for the other's FQN. -/
def cycA : RevFile := ⟨"A.java", "A.java", fun _ => false, fun t => t == "p.B", some "p.A"⟩

/-- Second half of the A→B→A cycle fixture. -/
def cycB : RevFile := ⟨"B.java", "B.java", fun _ => false, fun t => t == "p.A", some "p.B"⟩

/-- A single file referencing target `p.T`, for exercising the per-level cap. -/
def capFile : RevFile := ⟨"X.java", "X.java", fun _ => false, fun t => t == "p.T", none⟩

/-- A test-named file whose extension case defeats the case-sensitive
`.endswith(".java")` candidate filter while still ending in `Test.java`
case-insensitively; it matches every reference signal. -/
def oddCaseTestFile : RevFile := ⟨"AppTest.JAVA", "AppTest.JAVA", fun _ => true, fun _ => true, none⟩

/-- An ordinary source file matching the same-package signal for any target. -/
def mainFile : RevFile := ⟨"Main.java", "Main.java", fun _ => true, fun _ => false, none⟩

/-- A conventional test file matching the combined signal for any target. -/
def fooTestFile : RevFile := ⟨"FooTest.java", "FooTest.java", fun _ => false, fun _ => true, none⟩

/-- A test-named configuration file declaring a `@Bean` for class `Foo`. -/
def beanTestFile : BeanFile := ⟨"FooTest.java", "/repo/FooTest.java", "@Bean Foo"⟩

/-- Fixture `A.java`: package `p`, class `A`, method `foo` whose body calls `bar`. -/
def fileA : JFile := ⟨some "p", [⟨"class", "A", [], none, [], [], 0, [⟨"foo", 100, ["bar"]⟩]⟩]⟩

/-- Fixture `B.java`: package `p`, class `B`, method `bar`. -/
def fileB : JFile := ⟨some "p", [⟨"class", "B", [], none, [], [], 0, [⟨"bar", 100, []⟩]⟩]⟩

/-- A file declaring one method `foo` whose header ends beyond the 8000
character body-scan window of graph_parallel.py. -/
def farMethodFile : JFile := ⟨some "p", [⟨"class", "C", [], none, [], [], 0, [⟨"foo", 9000, []⟩]⟩]⟩

/-- A file declaring one in-window method `foo`. -/
def nearMethodFile : JFile := ⟨some "p", [⟨"class", "C", [], none, [], [], 0, [⟨"foo", 10, []⟩]⟩]⟩

/-- A `@Service`-annotated class extending `Base`, implementing `IFoo`,
with an autowired field, a constructor and one method. -/
def serviceClass : JClass :=
  ⟨"class", "A", ["Service"], some "Base", ["IFoo"], ["Dep"], 1, [⟨"m", 10, ["x"]⟩]⟩

/-- A file declaring only `serviceClass` in package `p`. -/
def serviceFile : JFile := ⟨some "p", [serviceClass]⟩

/-- A class whose only lookback annotation token contains both "Controller"
and "Service". -/
def controllerServiceFile : JFile :=
  ⟨some "p", [⟨"class", "X", ["ControllerService"], none, [], [], 0, []⟩]⟩

/-! ## Lemmas about the resolver -/

/-- At depth 0 the inner file loop never recurses: it returns the file list
verbatim with `visited` untouched. -/
lemma rrdFilesLoop_depth_zero (corpus : List RevFile) (it : Bool) (limit : Option Nat) :
    ∀ files visited,
      rrdFilesLoop corpus (recursive_reverse_dependencies corpus it limit 0) files visited
        = (files, visited) := by
  intro files
  induction files with
  | nil => intro visited; rw [rrdFilesLoop]
  | cons p ps ih =>
    intro visited
    rw [rrdFilesLoop]
    cases h : derivedFqnAt corpus p with
    | none => simp [h, ih]
    | some g =>
      have h0 : recursive_reverse_dependencies corpus it limit 0 g visited = ([], visited) := rfl
      simp only [h, h0]
      simp [ih]

/-! ## C1, C6, C7 -/

/-- C1: `resolveRecursive` terminates for every finite corpus, target FQN,
depth and visited set (it is a total function, defined by recursion on the
strictly decreasing depth), and its result list contains each file path at
most once; on the concrete A→B→A cyclic corpus it returns both files, each
once. -/
theorem resolveRecursive_terminates_nodup :
    (∀ (corpus : List RevFile) (includeTests : Bool) (limit : Option Nat)
        (depth : Nat) (fqn : String) (visited : List String),
      ((recursive_reverse_dependencies corpus includeTests limit depth fqn visited).1).Nodup) ∧
    (recursive_reverse_dependencies [cycA, cycB] false none 3 "p.A" []).1
      = ["B.java", "A.java"] := by
  constructor
  · intro corpus it limit depth fqn visited
    match depth with
    | 0 => simp [recursive_reverse_dependencies]
    | d + 1 =>
      rw [recursive_reverse_dependencies]
      split
      · simp
      · exact List.nodup_dedup _
  · rfl

/-- C6 (amended): with no cap, the per-level file list is not truncated; a
positive cap `l` truncates each level's `findReferences` result to at most
`l` files (in particular, a depth-1 resolution returns at most `l` paths).
A cap of 0 is falsy in Python and disables truncation (see the
counterexample). -/
theorem perLevelLimit_truncates :
    (∀ files : List String, applyLimit none files = files) ∧
    (∀ (files : List String) (l : Nat), 1 ≤ l → (applyLimit (some l) files).length ≤ l) ∧
    (∀ (corpus : List RevFile) (it : Bool) (fqn : String) (visited : List String) (l : Nat),
      1 ≤ l →
        ((recursive_reverse_dependencies corpus it (some l) 1 fqn visited).1).length ≤ l) := by
  refine ⟨fun files => rfl, ?_, ?_⟩
  · intro files l hl
    have hne : ¬ l = 0 := by omega
    simp only [applyLimit, if_neg hne, List.length_take]
    omega
  · intro corpus it fqn visited l hl
    have hne : ¬ l = 0 := by omega
    show ((recursive_reverse_dependencies corpus it (some l) (0 + 1) fqn visited).1).length ≤ l
    rw [recursive_reverse_dependencies]
    split
    · simp
    · simp only [rrdFilesLoop_depth_zero]
      calc ((applyLimit (some l) (find_reverse_dependencies corpus fqn it)).dedup).length
          ≤ (applyLimit (some l) (find_reverse_dependencies corpus fqn it)).length :=
            (List.dedup_sublist _).length_le
        _ ≤ l := by simp only [applyLimit, if_neg hne, List.length_take]; omega

/-- C6 witness: the amended statement at a concrete positive cap. -/
theorem perLevelLimit_truncates_witness :
    1 ≤ 1 ∧ ((recursive_reverse_dependencies [capFile] false (some 1) 1 "p.T" []).1).length ≤ 1 :=
  ⟨by decide, perLevelLimit_truncates.2.2 [capFile] false "p.T" [] 1 (by decide)⟩

/-- C6 counterexample: with a supplied cap of 0, the level is not truncated
to at most 0 entries (Python's `if limit:` treats 0 as no cap): the single
referencing file is still processed and returned. -/
theorem perLevelLimit_zero_cap_counterexample :
    (recursive_reverse_dependencies [capFile] false (some 0) 1 "p.T" []).1 = ["X.java"] ∧
    ¬ (((recursive_reverse_dependencies [capFile] false (some 0) 1 "p.T" []).1).length ≤ 0) := by
  constructor
  · rfl
  · decide

/-- C7 (amended): the single-target `prepare_context`
(dep_revdep_upto_d.py) surfaces a missing target as an explicit
`FileNotFoundError`; the multi-target `prepare_context_multi`
(prepare_context_from_imports.py) instead skips a missing target with a
printed warning and continues with the remaining targets. -/
theorem prepare_context_missing_target :
    ∀ (paths : List String) (target : String), paths.contains target = false →
      (prepare_context paths target
          = Except.error ("Target file not found: " ++ target)) ∧
      (∀ ts, prepare_context_multi paths (target :: ts) = prepare_context_multi paths ts) := by
  intro paths target h
  have h' : ¬ (paths.contains target = true) := by rw [h]; exact Bool.false_ne_true
  constructor
  · rw [prepare_context, if_neg h']
  · intro ts
    rw [prepare_context_multi]
    cases hm : prepare_context_multi paths ts with
    | ok rest =>
      show Except.ok (if paths.contains target = true then target :: rest else rest)
            = Except.ok rest
      rw [if_neg h']
    | error e => rfl

/-- C7 witness: the amended statement at a concrete missing target. -/
theorem prepare_context_missing_target_witness :
    (List.contains [] "A.java" = false) ∧
    (prepare_context [] "A.java" = Except.error ("Target file not found: " ++ "A.java")) ∧
    (prepare_context_multi [] ["A.java"] = prepare_context_multi [] []) :=
  ⟨by decide, (prepare_context_missing_target [] "A.java" (by decide)).1,
    (prepare_context_missing_target [] "A.java" (by decide)).2 []⟩

/-- C7 counterexample: `prepare_context_multi` on a corpus with no files
and a requested target returns normally with the target silently skipped;
no failure is surfaced. -/
theorem prepare_context_multi_silent_skip_counterexample :
    prepare_context_multi [] ["A.java"] = Except.ok [] := rfl

/-! ## C10, C5 -/

/-- Suffix tests are monotone: ending in `t` implies ending in any suffix of `t`. -/
lemma endsWithStr_mono {s t u : String} (hu : u.data <:+ t.data)
    (h : endsWithStr s t = true) : endsWithStr s u = true := by
  have h1 : t.data <:+ s.data := of_decide_eq_true h
  exact decide_eq_true (hu.trans h1)

/-- A `.java` file matching the bean/configuration signal is in the result
of `find_bean_configurations`. -/
lemma mem_find_bean_configurations {corpus : List BeanFile} {t : String} {f : BeanFile}
    (hf : f ∈ corpus) (hj : endsWithStr f.name ".java" = true)
    (hs : beanSignal t f.text = true) :
    f.path ∈ find_bean_configurations corpus t := by
  induction corpus with
  | nil => cases hf
  | cons g gs ih =>
    rw [find_bean_configurations]
    rcases List.mem_cons.mp hf with rfl | hmem
    · simp [hj, hs]
    · split
      · exact List.mem_cons_of_mem _ (ih hmem)
      · exact ih hmem

/-- C10: the bean/configuration search applies no test-name filter: a file
whose name ends in "Test.java", whose text matches a bean/configuration
signal for the target class, always appears in the result (the function
takes no include-tests setting at all). -/
theorem find_bean_configurations_includes_tests :
    ∀ (corpus : List BeanFile) (t : String) (f : BeanFile), f ∈ corpus →
      endsWithStr f.name "Test.java" = true → beanSignal t f.text = true →
      f.path ∈ find_bean_configurations corpus t := by
  intro corpus t f hf ht hs
  have hj : endsWithStr f.name ".java" = true :=
    endsWithStr_mono ⟨"Test".data, rfl⟩ ht
  exact mem_find_bean_configurations hf hj hs

/-- C10 witness: a concrete `@Bean` reference inside a test-named file. -/
theorem find_bean_configurations_includes_tests_witness :
    beanTestFile ∈ [beanTestFile] ∧
    endsWithStr beanTestFile.name "Test.java" = true ∧
    beanSignal "Foo" beanTestFile.text = true ∧
    beanTestFile.path ∈ find_bean_configurations [beanTestFile] "Foo" :=
  ⟨by simp, by decide, by decide,
    find_bean_configurations_includes_tests [beanTestFile] "Foo" beanTestFile
      (by simp) (by decide) (by decide)⟩

/-- The reverse-dependency scan loop is the filter-then-project of its
per-file condition. -/
lemma findRevLoop_eq_filter_map (fqn : String) (it : Bool) :
    ∀ corpus : List RevFile,
      findRevLoop fqn it corpus
        = (corpus.filter (fun f =>
            endsWithStr f.name ".java" && (it || !(isTestJavaName f.name))
              && (f.samePkgHit fqn || f.combinedHit fqn))).map (·.path) := by
  intro corpus
  induction corpus with
  | nil => rfl
  | cons f fs ih =>
    rw [findRevLoop, List.filter_cons]
    have h2 : (it || !(isTestJavaName f.name)) = !(!it && isTestJavaName f.name) := by
      rw [Bool.not_and, Bool.not_not]
    cases hj : endsWithStr f.name ".java" with
    | false => simp [hj, ih]
    | true =>
      cases hsk : (!it && isTestJavaName f.name) with
      | true => simp [hj, h2, hsk, ih]
      | false =>
        cases hsp : f.samePkgHit fqn with
        | true => simp [hj, h2, hsk, hsp, ih]
        | false =>
          cases hcb : f.combinedHit fqn with
          | true => simp [hj, h2, hsk, hsp, hcb, ih]
          | false => simp [hj, h2, hsk, hsp, hcb, ih]

/-- Membership characterization of `find_reverse_dependencies`: a path is
returned iff some corpus file carries it, has the (case-sensitive) `.java`
extension, passes the test-name filter, and matches a signal. -/
lemma mem_find_reverse_dependencies {corpus : List RevFile} {fqn : String}
    {it : Bool} {p : String} :
    p ∈ find_reverse_dependencies corpus fqn it ↔
      ∃ f ∈ corpus, f.path = p ∧ endsWithStr f.name ".java" = true ∧
        (it = true ∨ isTestJavaName f.name = false) ∧
        (f.samePkgHit fqn = true ∨ f.combinedHit fqn = true) := by
  rw [find_reverse_dependencies, List.mem_dedup, findRevLoop_eq_filter_map]
  simp only [List.mem_map, List.mem_filter, Bool.and_eq_true, Bool.or_eq_true,
    Bool.not_eq_true']
  constructor
  · rintro ⟨f, ⟨hf, ⟨hj, hti⟩, hsig⟩, hp⟩
    exact ⟨f, hf, hp, hj, hti, hsig⟩
  · rintro ⟨f, hf, hp, hj, hti, hsig⟩
    exact ⟨f, ⟨hf, ⟨hj, hti⟩, hsig⟩, hp⟩

/-- C5 (amended): with `include_tests=false` every returned path belongs to
a file whose name does not end in "Test.java" case-insensitively; with
`include_tests=true`, a file is returned whenever its name ends in ".java"
(case-sensitively, the candidate filter) and it matches at least one
reference signal.  (The case-sensitive `.java` filter is why the inclusion
direction needs the extra condition: see the counterexample.) -/
theorem find_reverse_dependencies_test_filter :
    (∀ (corpus : List RevFile) (fqn p : String),
        p ∈ find_reverse_dependencies corpus fqn false →
        ∃ f ∈ corpus, f.path = p ∧ isTestJavaName f.name = false) ∧
    (∀ (corpus : List RevFile) (fqn : String) (f : RevFile), f ∈ corpus →
        endsWithStr f.name ".java" = true →
        (f.samePkgHit fqn = true ∨ f.combinedHit fqn = true) →
        f.path ∈ find_reverse_dependencies corpus fqn true) := by
  constructor
  · intro corpus fqn p hp
    obtain ⟨f, hf, hpath, _, hti, _⟩ := mem_find_reverse_dependencies.mp hp
    rcases hti with h | h
    · cases h
    · exact ⟨f, hf, hpath, h⟩
  · intro corpus fqn f hf hj hsig
    exact mem_find_reverse_dependencies.mpr ⟨f, hf, rfl, hj, Or.inl rfl, hsig⟩

/-- C5 witness: both amended directions at concrete corpora. -/
theorem find_reverse_dependencies_test_filter_witness :
    ("Main.java" ∈ find_reverse_dependencies [mainFile] "p.T" false) ∧
    (∃ f ∈ [mainFile], f.path = "Main.java" ∧ isTestJavaName f.name = false) ∧
    (fooTestFile ∈ [fooTestFile] ∧ endsWithStr fooTestFile.name ".java" = true) ∧
    ("FooTest.java" ∈ find_reverse_dependencies [fooTestFile] "p.T" true) :=
  ⟨by decide,
    find_reverse_dependencies_test_filter.1 [mainFile] "p.T" "Main.java" (by decide),
    ⟨by simp, by decide⟩,
    find_reverse_dependencies_test_filter.2 [fooTestFile] "p.T" fooTestFile
      (by simp) (by decide) (Or.inr (by decide))⟩

/-- C5 counterexample: a file named "AppTest.JAVA" ends in "Test.java"
case-insensitively and matches every signal, yet with `include_tests=true`
it is not returned, because the candidate filter `f.endswith(".java")` is
case-sensitive and rejects it before any signal is consulted. -/
theorem find_reverse_dependencies_oddcase_counterexample :
    isTestJavaName oddCaseTestFile.name = true ∧
    oddCaseTestFile.combinedHit "p.T" = true ∧
    find_reverse_dependencies [oddCaseTestFile] "p.T" true = [] :=
  ⟨by decide, by decide, rfl⟩

/-! ## C4: the balanced-block extractor -/

/-- Unfolding of `braceNet` over a cons cell. -/
lemma braceNet_cons (c : Char) (l : List Char) :
    braceNet (c :: l)
      = braceNet l + (if c = '{' then 1 else 0) - (if c = '}' then 1 else 0) := by
  by_cases h1 : c = '{'
  · have h2 : ¬ (c = '}') := by subst h1; decide
    subst h1
    simp [braceNet, List.count_cons, h2]
    ring
  · by_cases h2 : c = '}'
    · subst h2
      simp [braceNet, List.count_cons, h1]
      ring
    · simp [braceNet, List.count_cons, h1, h2]

/-- A brace-free list contributes no brace counts. -/
lemma noBrace_count {l : List Char} (h : noBrace l = true) :
    l.count '{' = 0 ∧ l.count '}' = 0 := by
  rw [noBrace, List.all_eq_true] at h
  constructor <;> rw [List.count_eq_zero] <;> intro hm <;>
    simpa using h _ hm

/-- The scan passes over brace-free text without changing the depth. -/
lemma findClose_append_noBrace :
    ∀ (pre2 rest : List Char) (d : Int) (i : Nat), noBrace pre2 = true →
      findClose (pre2 ++ rest) d i = findClose rest d (i + pre2.length) := by
  intro pre2
  induction pre2 with
  | nil => intro rest d i _; simp
  | cons c cs ih =>
    intro rest d i h
    rw [noBrace, List.all_cons, Bool.and_eq_true] at h
    obtain ⟨hc, hcs⟩ := h
    rw [Bool.and_eq_true, Bool.not_eq_true', beq_eq_false_iff_ne, Bool.not_eq_true',
      beq_eq_false_iff_ne] at hc
    rw [List.cons_append, findClose, if_neg hc.1, if_neg hc.2, ih rest d (i + 1) hcs]
    congr 1
    simp
    omega

/-- The scan started at depth `d` inside a block whose running balance
stays positive finds the closing brace exactly where the balance first
returns to zero: at the `'}'` following `mid`. -/
lemma findClose_dyck :
    ∀ (mid rest : List Char) (d : Int) (i : Nat),
      (∀ p, p <+: mid → 0 < d + braceNet p) → d + braceNet mid = 1 →
      findClose (mid ++ '}' :: rest) d i = some (i + mid.length) := by
  intro mid
  induction mid with
  | nil =>
    intro rest d i _ hn
    have hd : d = 1 := by simpa [braceNet] using hn
    subst hd
    rw [List.nil_append, findClose, if_neg (by decide : ¬ ('}' = '{')), if_pos rfl,
      if_pos (by omega : (1 : Int) - 1 = 0)]
    simp
  | cons c cs ih =>
    intro rest d i hp hn
    by_cases h1 : c = '{'
    · subst h1
      rw [List.cons_append, findClose, if_pos rfl]
      have hrec := ih rest (d + 1) (i + 1)
        (by
          intro p hpre
          have := hp ('{' :: p) (List.cons_prefix_cons.mpr ⟨rfl, hpre⟩)
          rw [braceNet_cons] at this
          simp at this
          omega)
        (by rw [braceNet_cons] at hn; simp at hn; omega)
      rw [hrec]
      congr 1
      simp
      omega
    · by_cases h2 : c = '}'
      · subst h2
        have hgt : 0 < d + braceNet ['}'] := hp ['}'] ⟨cs, rfl⟩
        have hbn : braceNet (['}'] : List Char) = -1 := by decide
        rw [hbn] at hgt
        rw [List.cons_append, findClose, if_neg (by decide : ¬ ('}' = '{')),
          if_pos rfl, if_neg (by omega : ¬ (d - 1 = 0))]
        have hrec := ih rest (d - 1) (i + 1)
          (by
            intro p hpre
            have := hp ('}' :: p) (List.cons_prefix_cons.mpr ⟨rfl, hpre⟩)
            rw [braceNet_cons] at this
            simp at this
            omega)
          (by rw [braceNet_cons] at hn; simp at hn; omega)
        rw [hrec]
        congr 1
        simp
        omega
      · rw [List.cons_append, findClose, if_neg h1, if_neg h2]
        have hrec := ih rest d (i + 1)
          (by
            intro p hpre
            have := hp (c :: p) (List.cons_prefix_cons.mpr ⟨rfl, hpre⟩)
            rw [braceNet_cons, if_neg h1, if_neg h2] at this
            omega)
          (by rw [braceNet_cons, if_neg h1, if_neg h2] at hn; omega)
        rw [hrec]
        congr 1
        simp
        omega

/-- C4: on a buffer decomposing as arbitrary text, a brace-free matched
declaration `seg` (the `TYPE_RE` span), brace-free text, an opening brace
and a balanced body, the extractor returns exactly the slice from the
declaration through the matching closing brace — a substring with equally
many opening and closing braces whose last character is that closing brace.
With no declaration match, the whole buffer is returned unchanged. -/
theorem extract_full_type_balanced :
    (∀ code : List Char, extract_full_type code none = code) ∧
    (∀ codePre seg pre2 mid rest : List Char,
      noBrace seg = true → noBrace pre2 = true →
      (∀ p, p <+: mid → 0 ≤ braceNet p) → braceNet mid = 0 →
      extract_full_type (codePre ++ seg ++ pre2 ++ '{' :: (mid ++ '}' :: rest))
          (some (codePre.length, codePre.length + seg.length))
        = seg ++ pre2 ++ '{' :: (mid ++ ['}']) ∧
      (seg ++ pre2 ++ '{' :: (mid ++ ['}'])).count '{'
        = (seg ++ pre2 ++ '{' :: (mid ++ ['}'])).count '}' ∧
      (seg ++ pre2 ++ '{' :: (mid ++ ['}'])).getLast? = some '}') := by
  constructor
  · intro code; rfl
  · intro codePre seg pre2 mid rest hseg hpre hp hn
    have hdrop :
        (codePre ++ seg ++ pre2 ++ '{' :: (mid ++ '}' :: rest)).drop
            (codePre.length + seg.length)
          = pre2 ++ '{' :: (mid ++ '}' :: rest) := by
      have : codePre ++ seg ++ pre2 ++ '{' :: (mid ++ '}' :: rest)
          = (codePre ++ seg) ++ (pre2 ++ '{' :: (mid ++ '}' :: rest)) := by
        simp [List.append_assoc]
      rw [this, ← List.length_append codePre seg, List.drop_left]
    have hfind :
        findClose ((codePre ++ seg ++ pre2 ++ '{' :: (mid ++ '}' :: rest)).drop
            (codePre.length + seg.length)) 0 (codePre.length + seg.length)
          = some (codePre.length + seg.length + pre2.length + 1 + mid.length) := by
      rw [hdrop, findClose_append_noBrace pre2 _ 0 _ hpre, findClose, if_pos rfl]
      norm_num
      rw [findClose_dyck mid rest 1 _
        (by intro p hpre2; have := hp p hpre2; omega)
        (by omega)]
    refine ⟨?_, ?_, ?_⟩
    · rw [extract_full_type, hfind]
      show ((codePre ++ seg ++ pre2 ++ '{' :: (mid ++ '}' :: rest)).take
            (codePre.length + seg.length + pre2.length + 1 + mid.length + 1)).drop
            codePre.length
          = seg ++ pre2 ++ '{' :: (mid ++ ['}'])
      have htake :
          (codePre ++ seg ++ pre2 ++ '{' :: (mid ++ '}' :: rest)).take
              (codePre.length + seg.length + pre2.length + 1 + mid.length + 1)
            = codePre ++ (seg ++ pre2 ++ '{' :: (mid ++ ['}'])) := by
        have hsplit : codePre ++ seg ++ pre2 ++ '{' :: (mid ++ '}' :: rest)
            = (codePre ++ (seg ++ pre2 ++ '{' :: (mid ++ ['}']))) ++ rest := by
          simp [List.append_assoc]
        rw [hsplit]
        rw [List.take_left']
        simp [List.length_append]
        omega
      rw [htake, List.drop_left]
    · have hseg' := noBrace_count hseg
      have hpre' := noBrace_count hpre
      have hmid : mid.count '{' = mid.count '}' := by
        rw [braceNet] at hn
        omega
      simp [List.count_append, List.count_cons, hseg'.1, hseg'.2, hpre'.1, hpre'.2, hmid]
    · have : seg ++ pre2 ++ '{' :: (mid ++ ['}'])
          = (seg ++ pre2 ++ '{' :: mid) ++ ['}'] := by
        simp [List.append_assoc]
      rw [this, List.getLast?_concat]

/-- C4 witness: the main conjunct at a one-character declaration followed
by an empty balanced block. -/
theorem extract_full_type_balanced_witness :
    noBrace ['c'] = true ∧
    (extract_full_type ['c', '{', '}'] (some (0, 1)) = ['c', '{', '}'] ∧
      (['c', '{', '}'] : List Char).count '{' = (['c', '{', '}'] : List Char).count '}' ∧
      (['c', '{', '}'] : List Char).getLast? = some '}') :=
  ⟨by decide,
    extract_full_type_balanced.2 [] ['c'] [] [] [] (by decide) (by decide)
      (fun p hp => by rw [List.prefix_nil.mp hp]; decide) (by decide)⟩

/-! ## C8, C9: stereotype roles and per-relation roles -/

/-- A token whose case-folded text contains "service" but not "controller"
is classified "service" by the inner stereotype loop (the table entries
checked before Service are Controller and RestController, both requiring a
"controller" substring). -/
lemma annoRole_service {a : String}
    (hs : containsStr (lowerStr a) "service" = true)
    (hc : containsStr (lowerStr a) "controller" = false) :
    annoRole a = some "service" := by
  have hrc : containsStr (lowerStr a) "restcontroller" = false := by
    by_contra h
    rw [Bool.not_eq_false] at h
    have h1 : "restcontroller".data <:+: (lowerStr a).data := of_decide_eq_true h
    have h2 : "controller".data <:+: "restcontroller".data := by decide
    have h3 := decide_eq_true (h2.trans h1)
    rw [containsStr] at hc
    rw [hc] at h3
    exact Bool.noConfusion h3
  rw [annoRole, springStereotypes]
  simp only [List.find?]
  rw [show lowerStr "Controller" = "controller" from rfl,
    show lowerStr "RestController" = "restcontroller" from rfl,
    show lowerStr "Service" = "service" from rfl]
  rw [hc, hrc, hs]
  rfl

/-- Tokens with no recognized stereotype do not affect the outer loop. -/
lemma stereotypeRole_unrecognized :
    ∀ {pre2 : List String}, (∀ b ∈ pre2, annoRole b = none) →
      ∀ l, stereotypeRole (pre2 ++ l) = stereotypeRole l := by
  intro pre2
  induction pre2 with
  | nil => intro _ l; rfl
  | cons b bs ih =>
    intro h l
    rw [List.cons_append, stereotypeRole, h b (List.mem_cons_self b bs)]
    exact ih (fun x hx => h x (List.mem_cons_of_mem _ hx)) l

/-- C8 (amended): the `declares` relation carries the role computed by the
stereotype loop over the lookback tokens; a token containing "Service"
(case-insensitively) yields role "service" provided no earlier token
matches any stereotype and the token does not also contain "Controller"
(checked earlier in the table); with no recognized token the role is
"class". -/
theorem stereotype_service_role :
    (∀ (pkg : String) (c : JClass) (cs : List JClass),
      (⟨fqnClass pkg c, none, "declares", stereotypeRole c.annos⟩ : Relation)
        ∈ regex_parse_java_G ⟨some pkg, c :: cs⟩) ∧
    (∀ (pre2 : List String) (a : String) (post : List String),
      (∀ b ∈ pre2, annoRole b = none) →
      containsStr (lowerStr a) "service" = true →
      containsStr (lowerStr a) "controller" = false →
      stereotypeRole (pre2 ++ a :: post) = "service") ∧
    (∀ annos : List String, (∀ b ∈ annos, annoRole b = none) →
      stereotypeRole annos = "class") := by
  refine ⟨?_, ?_, ?_⟩
  · intro pkg c cs
    rw [regex_parse_java_G]
    rw [show pkgOf ⟨some pkg, c :: cs⟩ = pkg from rfl]
    rw [parseClassesLoopG]
    exact List.mem_cons_self _ _
  · intro pre2 a post h hs hc
    rw [stereotypeRole_unrecognized h, stereotypeRole, annoRole_service hs hc]
  · intro annos h
    induction annos with
    | nil => rfl
    | cons b bs ih =>
      rw [stereotypeRole, h b (List.mem_cons_self b bs)]
      exact ih (fun x hx => h x (List.mem_cons_of_mem _ hx))

/-- C8 witness: the amended statement at a lone "@Service" token and at an
unrecognized token. -/
theorem stereotype_service_role_witness :
    containsStr (lowerStr "Service") "service" = true ∧
    containsStr (lowerStr "Service") "controller" = false ∧
    stereotypeRole ([] ++ "Service" :: []) = "service" ∧
    annoRole "Foo" = none ∧
    stereotypeRole ["Foo"] = "class" :=
  ⟨by decide, by decide,
    stereotype_service_role.2.1 [] "Service" [] (by intro b hb; cases hb)
      (by decide) (by decide),
    by decide,
    stereotype_service_role.2.2 ["Foo"]
      (by
        intro b hb
        rw [List.mem_singleton] at hb
        subst hb
        decide)⟩

/-- C8 counterexample: the token "ControllerService" contains "Service",
yet the declares relation it induces carries role "controller", because the
table checks Controller before Service and matches by substring. -/
theorem stereotype_service_role_counterexample :
    containsStr (lowerStr "ControllerService") "service" = true ∧
    regex_parse_java_G controllerServiceFile
      = [⟨"p.X", none, "declares", "controller"⟩] :=
  ⟨by decide, by decide⟩

/-- Every relation from the method loop of graph.py carries the class role
and is never an `implements` relation. -/
lemma parseMethodsLoopG_mem {fqnC role : String} :
    ∀ {ms : List JMethod} {r : Relation}, r ∈ parseMethodsLoopG fqnC role ms →
      r.role = role ∧ r.rtype ≠ "implements" := by
  intro ms
  induction ms with
  | nil => intro r hr; cases hr
  | cons m ms ih =>
    intro r hr
    rw [parseMethodsLoopG] at hr
    by_cases hk : m.name ∈ CONTROL_KEYWORDS
    · rw [if_pos hk] at hr
      exact ih hr
    · rw [if_neg hk] at hr
      rcases List.mem_cons.mp hr with rfl | hr
      · exact ⟨rfl, (by decide : ("has_method" : String) ≠ "implements")⟩
      · rcases List.mem_append.mp hr with hr | hr
        · obtain ⟨t, _, rfl⟩ := List.mem_map.mp hr
          exact ⟨rfl, (by decide : ("calls" : String) ≠ "implements")⟩
        · exact ih hr

/-- The class loop's output decomposes class by class: each class
contributes exactly the chunk the loop would emit for it alone. -/
lemma parseClassesLoopG_flatten (pkg : String) :
    ∀ cs : List JClass,
      parseClassesLoopG pkg cs
        = (cs.map (fun c => parseClassesLoopG pkg [c])).flatten := by
  intro cs
  induction cs with
  | nil => rfl
  | cons c cs ih =>
    simp only [List.map_cons, List.flatten_cons]
    rw [← ih]
    simp only [parseClassesLoopG]
    simp [List.append_assoc]

/-- Role discipline of one class's own relation chunk: `implements`
relations carry "interface"; every other relation carries exactly this
class's stereotype role. -/
lemma parseClassesLoopG_singleton_mem {pkg : String} {c : JClass} {r : Relation} :
    r ∈ parseClassesLoopG pkg [c] →
      (r.rtype = "implements" → r.role = "interface") ∧
      (r.rtype ≠ "implements" → r.role = stereotypeRole c.annos) := by
  intro hr
  rw [parseClassesLoopG] at hr
  rcases List.mem_cons.mp hr with rfl | hr
  · exact ⟨fun h => absurd h (by decide : ¬ ("declares" : String) = "implements"),
      fun _ => rfl⟩
  · rcases List.mem_append.mp hr with hr | hrec
    · rcases List.mem_append.mp hr with hr | hr
      · rcases List.mem_append.mp hr with hr | hr
        · rcases List.mem_append.mp hr with hr | hr
          · rcases List.mem_append.mp hr with hr | hr
            · cases he : c.extendsTail with
              | none => rw [he] at hr; cases hr
              | some e =>
                rw [he] at hr
                rcases List.mem_singleton.mp hr with rfl
                exact ⟨fun h => absurd h (by decide : ¬ ("extends" : String) = "implements"),
                  fun _ => rfl⟩
            · obtain ⟨t, _, rfl⟩ := List.mem_map.mp hr
              exact ⟨fun _ => rfl, fun h => absurd rfl h⟩
          · obtain ⟨t, _, rfl⟩ := List.mem_map.mp hr
            exact ⟨fun h => absurd h (by decide : ¬ ("autowired" : String) = "implements"),
              fun _ => rfl⟩
        · rcases (List.mem_replicate.mp hr).2 with rfl
          exact ⟨fun h => absurd h (by decide : ¬ ("has_constructor" : String) = "implements"),
            fun _ => rfl⟩
      · obtain ⟨hrole, hty⟩ := parseMethodsLoopG_mem hr
        exact ⟨fun h => absurd h hty, fun _ => hrole⟩
    · rw [parseClassesLoopG] at hrec
      cases hrec

/-- C9: the matcher's output is the concatenation, class by class, of each
declared type's own relation chunk; within one type's chunk, `implements`
relations always carry the fixed role "interface", while the declares,
extends, autowired, has_constructor, has_method and calls relations all
carry that type's own stereotype role. -/
theorem implements_role_interface :
    (∀ f : JFile,
      regex_parse_java_G f
        = (f.classes.map (fun c => parseClassesLoopG (pkgOf f) [c])).flatten) ∧
    (∀ (pkg : String) (c : JClass) (r : Relation), r ∈ parseClassesLoopG pkg [c] →
      (r.rtype = "implements" → r.role = "interface") ∧
      (r.rtype ≠ "implements" → r.role = stereotypeRole c.annos)) := by
  constructor
  · intro f
    rw [regex_parse_java_G, parseClassesLoopG_flatten]
  · intro pkg c r hr
    exact parseClassesLoopG_singleton_mem hr

/-- C9 witness: the per-type role discipline at `serviceClass`'s own chunk,
for both its `implements` relation and its `declares` relation. -/
theorem implements_role_interface_witness :
    ((⟨"p.A", some "IFoo", "implements", "interface"⟩ : Relation)
        ∈ parseClassesLoopG "p" [serviceClass]) ∧
    ((⟨"p.A", none, "declares", "service"⟩ : Relation)
        ∈ parseClassesLoopG "p" [serviceClass]) ∧
    ((⟨"p.A", some "IFoo", "implements", "interface"⟩ : Relation).rtype = "implements" →
      (⟨"p.A", some "IFoo", "implements", "interface"⟩ : Relation).role = "interface") ∧
    ((⟨"p.A", none, "declares", "service"⟩ : Relation).rtype ≠ "implements" →
      (⟨"p.A", none, "declares", "service"⟩ : Relation).role
        = stereotypeRole serviceClass.annos) :=
  ⟨by decide, by decide,
    (implements_role_interface.2 "p" serviceClass _ (by decide)).1,
    (implements_role_interface.2 "p" serviceClass _ (by decide)).2⟩

/-! ## C2, C3: the two-pass method index and call-edge resolution -/

/-- Index-membership characterization of the method loop: the updated
`ALL_DEFINED_METHODS` holds exactly the old entries plus the simple names
and FQNs of the non-keyword methods scanned. -/
lemma parseMethodsLoop_idx_mem {b : Bool} {fqnC role : String} :
    ∀ {ms : List JMethod} {idx : List String} {s : String},
      s ∈ (parseMethodsLoop b fqnC role ms idx).2 ↔
        s ∈ idx ∨ ∃ m ∈ ms, m.name ∉ CONTROL_KEYWORDS ∧
          (s = m.name ∨ s = fqnC ++ "." ++ m.name) := by
  intro ms
  induction ms with
  | nil => intro idx s; simp [parseMethodsLoop]
  | cons m ms ih =>
    intro idx s
    rw [parseMethodsLoop]
    by_cases hk : m.name ∈ CONTROL_KEYWORDS
    · rw [if_pos hk, ih]
      constructor
      · rintro (h | ⟨m', hm', hprops⟩)
        · exact Or.inl h
        · exact Or.inr ⟨m', List.mem_cons_of_mem _ hm', hprops⟩
      · rintro (h | ⟨m', hm', hk', hprops⟩)
        · exact Or.inl h
        · rcases List.mem_cons.mp hm' with rfl | hm'
          · exact absurd hk hk'
          · exact Or.inr ⟨m', hm', hk', hprops⟩
    · rw [if_neg hk]
      show s ∈ (parseMethodsLoop b fqnC role ms
          ((idx.insert m.name).insert (fqnC ++ "." ++ m.name))).2 ↔ _
      rw [ih]
      simp only [List.mem_insert_iff]
      constructor
      · rintro ((h | h | h) | ⟨m', hm', hk', hprops⟩)
        · exact Or.inr ⟨m, List.mem_cons_self m ms, hk, Or.inr h⟩
        · exact Or.inr ⟨m, List.mem_cons_self m ms, hk, Or.inl h⟩
        · exact Or.inl h
        · exact Or.inr ⟨m', List.mem_cons_of_mem _ hm', hk', hprops⟩
      · rintro (h | ⟨m', hm', hk', hprops⟩)
        · exact Or.inl (Or.inr (Or.inr h))
        · rcases List.mem_cons.mp hm' with rfl | hm'
          · rcases hprops with h | h
            · exact Or.inl (Or.inr (Or.inl h))
            · exact Or.inl (Or.inl h)
          · exact Or.inr ⟨m', hm', hk', hprops⟩

/-- Index-membership characterization of the class loop. -/
lemma parseClassesLoop_idx_mem {b : Bool} {pkg : String} :
    ∀ {cs : List JClass} {idx : List String} {s : String},
      s ∈ (parseClassesLoop b pkg cs idx).2 ↔
        s ∈ idx ∨ ∃ c ∈ cs, ∃ m ∈ windowMethods c, m.name ∉ CONTROL_KEYWORDS ∧
          (s = m.name ∨ s = fqnClass pkg c ++ "." ++ m.name) := by
  intro cs
  induction cs with
  | nil => intro idx s; simp [parseClassesLoop]
  | cons c cs ih =>
    intro idx s
    rw [parseClassesLoop]
    show s ∈ (parseClassesLoop b pkg cs
        (parseMethodsLoop b (fqnClass pkg c) (stereotypeRole c.annos)
          (windowMethods c) idx).2).2 ↔ _
    rw [ih, parseMethodsLoop_idx_mem]
    constructor
    · rintro ((h | ⟨m, hm, hprops⟩) | ⟨c', hc', hrest⟩)
      · exact Or.inl h
      · exact Or.inr ⟨c, List.mem_cons_self c cs, m, hm, hprops⟩
      · exact Or.inr ⟨c', List.mem_cons_of_mem _ hc', hrest⟩
    · rintro (h | ⟨c', hc', hrest⟩)
      · exact Or.inl (Or.inl h)
      · rcases List.mem_cons.mp hc' with rfl | hc'
        · exact Or.inl (Or.inr hrest)
        · exact Or.inr ⟨c', hc', hrest⟩

/-- Index-membership characterization of Pass 1 over a corpus, with an
arbitrary starting index. -/
lemma pass1_foldl_mem :
    ∀ {corpus : List JFile} {idx : List String} {s : String},
      s ∈ corpus.foldl (fun idx f => (regex_parse_java f true idx).2) idx ↔
        s ∈ idx ∨ ∃ f ∈ corpus, declaredTok f s := by
  intro corpus
  induction corpus with
  | nil => intro idx s; simp
  | cons f fs ih =>
    intro idx s
    rw [List.foldl_cons, ih]
    constructor
    · rintro (h | ⟨f', hf', hd⟩)
      · rw [regex_parse_java, parseClassesLoop_idx_mem] at h
        rcases h with h | ⟨c, hc, m, hm, hk, hor⟩
        · exact Or.inl h
        · exact Or.inr ⟨f, List.mem_cons_self f fs, c, hc, m, hm, hk, hor⟩
      · exact Or.inr ⟨f', List.mem_cons_of_mem _ hf', hd⟩
    · rintro (h | ⟨f', hf', hd⟩)
      · refine Or.inl ?_
        rw [regex_parse_java, parseClassesLoop_idx_mem]
        exact Or.inl h
      · rcases List.mem_cons.mp hf' with rfl | hf'
        · refine Or.inl ?_
          rw [regex_parse_java, parseClassesLoop_idx_mem]
          exact Or.inr hd
        · exact Or.inr ⟨f', hf', hd⟩

/-- Membership in the Pass-1 method index is exactly "some corpus file
declares the token as a windowed non-keyword method name or FQN". -/
lemma pass1_mem {corpus : List JFile} {s : String} :
    s ∈ pass1 corpus ↔ ∃ f ∈ corpus, declaredTok f s := by
  rw [pass1, pass1_foldl_mem]
  simp

/-- The method loop emits only `has_method` relations. -/
lemma parseMethodsLoop_rels {b : Bool} {fqnC role : String} :
    ∀ {ms : List JMethod} {idx : List String} {r : Relation},
      r ∈ (parseMethodsLoop b fqnC role ms idx).1 → r.rtype = "has_method" := by
  intro ms
  induction ms with
  | nil => intro idx r hr; cases hr
  | cons m ms ih =>
    intro idx r hr
    rw [parseMethodsLoop] at hr
    by_cases hk : m.name ∈ CONTROL_KEYWORDS
    · rw [if_pos hk] at hr
      exact ih hr
    · rw [if_neg hk] at hr
      cases b with
      | true => exact ih hr
      | false =>
        rcases List.mem_cons.mp hr with rfl | hr
        · rfl
        · exact ih hr

/-- Every relation emitted by the call loop is a `calls` edge whose target
token passed all three checks: not a control keyword, not the enclosing
method's own name, and present in the current method index. -/
lemma parseCallsLoop_mem {fqnC role : String} {idx : List String} :
    ∀ {ms : List JMethod} {r : Relation}, r ∈ parseCallsLoop fqnC role idx ms →
      ∃ m ∈ ms, ∃ t : String,
        r = ⟨fqnC ++ "." ++ m.name, some t, "calls", role⟩ ∧
        t ∉ CONTROL_KEYWORDS ∧ t ≠ m.name ∧ t ∈ idx := by
  intro ms
  induction ms with
  | nil => intro r hr; cases hr
  | cons m ms ih =>
    intro r hr
    rw [parseCallsLoop] at hr
    rcases List.mem_append.mp hr with hr | hr
    · obtain ⟨t, ht, rfl⟩ := List.mem_map.mp hr
      obtain ⟨htm, hcond⟩ := List.mem_filter.mp ht
      rw [Bool.and_eq_true, Bool.and_eq_true] at hcond
      obtain ⟨⟨h1, h2⟩, h3⟩ := hcond
      rw [Bool.not_eq_true'] at h1 h2
      rw [beq_eq_false_iff_ne] at h2
      have h1' : CONTROL_KEYWORDS.elem t = false := h1
      rw [List.elem_eq_mem, decide_eq_false_iff_not] at h1'
      have h3' : idx.elem t = true := h3
      rw [List.elem_eq_mem, decide_eq_true_eq] at h3'
      exact ⟨m, List.mem_cons_self m ms, t, rfl, h1', h2, h3'⟩
    · obtain ⟨m', hm', rest⟩ := ih hr
      exact ⟨m', List.mem_cons_of_mem _ hm', rest⟩

/-- Soundness of Pass-2 `calls` relations at the class-loop level: every
emitted `calls` edge names an enclosing windowed method, excludes keywords
and self-calls, and its target is in the index as updated by the loop. -/
lemma parseClassesLoop_calls {pkg : String} :
    ∀ {cs : List JClass} {idx : List String} {r : Relation},
      r ∈ (parseClassesLoop false pkg cs idx).1 → r.rtype = "calls" →
      ∃ c ∈ cs, ∃ m ∈ windowMethods c, ∃ t : String,
        r = ⟨fqnClass pkg c ++ "." ++ m.name, some t, "calls", stereotypeRole c.annos⟩ ∧
        t ∉ CONTROL_KEYWORDS ∧ t ≠ m.name ∧ t ∈ (parseClassesLoop false pkg cs idx).2 := by
  intro cs
  induction cs with
  | nil => intro idx r hr _; cases hr
  | cons c cs ih =>
    intro idx r hr hty
    rw [parseClassesLoop] at hr
    show ∃ c' ∈ c :: cs, ∃ m ∈ windowMethods c', ∃ t : String,
        r = ⟨fqnClass pkg c' ++ "." ++ m.name, some t, "calls", stereotypeRole c'.annos⟩ ∧
        t ∉ CONTROL_KEYWORDS ∧ t ≠ m.name ∧
        t ∈ (parseClassesLoop false pkg cs
          (parseMethodsLoop false (fqnClass pkg c) (stereotypeRole c.annos)
            (windowMethods c) idx).2).2
    rcases List.mem_cons.mp hr with rfl | hr
    · exact absurd hty (by decide : ¬ ("declares" : String) = "calls")
    · rcases List.mem_append.mp hr with hr | hrec
      · rcases List.mem_append.mp hr with hr | hr
        · rcases List.mem_append.mp hr with hr | hr
          · rcases List.mem_append.mp hr with hr | hr
            · exact absurd (parseMethodsLoop_rels hr ▸ hty) (by decide)
            · obtain ⟨t, _, rfl⟩ := List.mem_map.mp hr
              exact absurd hty (by decide : ¬ ("autowired" : String) = "calls")
          · rcases (List.mem_replicate.mp hr).2 with rfl
            exact absurd hty (by decide : ¬ ("has_constructor" : String) = "calls")
        · obtain ⟨m, hm, t, hrel, hkw, hself, hidx⟩ := parseCallsLoop_mem hr
          refine ⟨c, List.mem_cons_self c cs, m, hm, t, hrel, hkw, hself, ?_⟩
          rw [parseClassesLoop_idx_mem]
          exact Or.inl hidx
      · obtain ⟨c', hc', m, hm, t, hrel, hkw, hself, hidx⟩ := ih hrec hty
        exact ⟨c', List.mem_cons_of_mem _ hc', m, hm, t, hrel, hkw, hself, hidx⟩

/-- C3: over the two-file corpus `{A.java, B.java}`, Pass 2 emits a `calls`
relation from `p.A.foo` to `bar`; and in general, every `calls` relation
Pass 2 emits for a corpus file targets a token recorded in the Pass-1
MethodIndex, never a control keyword, and never the enclosing method's own
name. -/
theorem pass2_calls_resolved_against_index :
    ((⟨"p.A.foo", some "bar", "calls", "class"⟩ : Relation)
        ∈ (regex_parse_java fileA false (pass1 [fileA, fileB])).1) ∧
    (∀ (corpus : List JFile) (f : JFile) (r : Relation), f ∈ corpus →
      r ∈ (regex_parse_java f false (pass1 corpus)).1 → r.rtype = "calls" →
      ∃ t : String, r.toN = some t ∧ t ∈ pass1 corpus ∧ t ∉ CONTROL_KEYWORDS ∧
        ∃ c ∈ f.classes, ∃ m ∈ windowMethods c,
          r.fromN = fqnClass (pkgOf f) c ++ "." ++ m.name ∧ t ≠ m.name) := by
  constructor
  · decide
  · intro corpus f r hf hr hty
    rw [regex_parse_java] at hr
    obtain ⟨c, hc, m, hm, t, hrel, hkw, hself, hidx⟩ := parseClassesLoop_calls hr hty
    refine ⟨t, by rw [hrel], ?_, hkw, c, hc, m, hm, by rw [hrel], hself⟩
    rw [parseClassesLoop_idx_mem] at hidx
    rcases hidx with hidx | ⟨c', hc', m', hm', hk', hor'⟩
    · exact hidx
    · exact pass1_mem.mpr ⟨f, hf, c', hc', m', hm', hk', hor'⟩

/-- C3 witness: the general soundness statement applied to the emitted
`p.A.foo → bar` relation of the concrete two-file corpus. -/
theorem pass2_calls_resolved_against_index_witness :
    (fileA ∈ [fileA, fileB]) ∧
    ((⟨"p.A.foo", some "bar", "calls", "class"⟩ : Relation)
        ∈ (regex_parse_java fileA false (pass1 [fileA, fileB])).1) ∧
    (∃ t : String,
      (⟨"p.A.foo", some "bar", "calls", "class"⟩ : Relation).toN = some t ∧
      t ∈ pass1 [fileA, fileB] ∧ t ∉ CONTROL_KEYWORDS ∧
      ∃ c ∈ fileA.classes, ∃ m ∈ windowMethods c,
        (⟨"p.A.foo", some "bar", "calls", "class"⟩ : Relation).fromN
          = fqnClass (pkgOf fileA) c ++ "." ++ m.name ∧ t ≠ m.name) :=
  ⟨by decide, by decide,
    pass2_calls_resolved_against_index.2 [fileA, fileB] fileA _ (by decide)
      (by decide) rfl⟩

/-- C2 (amended): for a file whose declared methods all have their headers
inside the 8000-character body window and carry legal (non-keyword) names,
Pass 1 records exactly those methods' simple names and FQNs, no matter
where in the window they appear.  (Headers beyond the window are dropped:
see the counterexample.) -/
theorem pass1_records_method_names :
    ∀ f : JFile,
      (∀ c ∈ f.classes, ∀ m ∈ c.methods, m.hEnd ≤ 8000 ∧ m.name ∉ CONTROL_KEYWORDS) →
      (∀ c ∈ f.classes, (c.methods.map JMethod.name).Nodup) →
      ∀ s : String,
        s ∈ pass1 [f] ↔
          ∃ c ∈ f.classes, ∃ m ∈ c.methods,
            (s = m.name ∨ s = fqnClass (pkgOf f) c ++ "." ++ m.name) := by
  intro f hwin _ s
  rw [pass1_mem]
  constructor
  · rintro ⟨f', hf', c, hc, m, hm, _, hor⟩
    rcases List.mem_singleton.mp hf' with rfl
    exact ⟨c, hc, m, List.mem_of_mem_filter hm, hor⟩
  · rintro ⟨c, hc, m, hm, hor⟩
    refine ⟨f, List.mem_singleton.mpr rfl, c, hc, m, ?_, (hwin c hc m hm).2, hor⟩
    rw [windowMethods, List.mem_filter]
    exact ⟨hm, decide_eq_true (hwin c hc m hm).1⟩

/-- C2 witness: the amended statement at a single in-window method. -/
theorem pass1_records_method_names_witness :
    (∀ c ∈ nearMethodFile.classes, ∀ m ∈ c.methods,
      m.hEnd ≤ 8000 ∧ m.name ∉ CONTROL_KEYWORDS) ∧
    (∀ c ∈ nearMethodFile.classes, (c.methods.map JMethod.name).Nodup) ∧
    ("foo" ∈ pass1 [nearMethodFile] ↔
      ∃ c ∈ nearMethodFile.classes, ∃ m ∈ c.methods,
        ("foo" = m.name ∨ "foo" = fqnClass (pkgOf nearMethodFile) c ++ "." ++ m.name)) :=
  ⟨by decide, by decide,
    pass1_records_method_names nearMethodFile (by decide) (by decide) "foo"⟩

/-- C2 counterexample: a file declaring exactly one method `foo`, whose
header ends at offset 9000 of the class body, has an empty Pass-1 index:
the name is not recorded because the body scan is capped at 8000
characters, refuting "regardless of where in the type body each method
appears". -/
theorem pass1_window_cap_counterexample :
    farMethodFile.classes.map (fun c => c.methods.map JMethod.name) = [["foo"]] ∧
    pass1 [farMethodFile] = [] ∧ "foo" ∉ pass1 [farMethodFile] :=
  ⟨by decide, by decide, by decide⟩

end PRReviewer
